import Mathlib

/-!
Verification of the zk-vault attestation library.

This file gives a shallow embedding, in Lean 4, of the parts of the
zk-vault Rust crate that the quantified claims are about:

* the Poseidon sponge hasher (`src/merkle/hash.rs`) and the value-level
  semantics of its in-circuit gadget (`poseidon_hash_two` in
  `src/circuit/merkle_proof.rs`, which calls the arkworks
  `PoseidonSpongeVar` gadget — a line-by-line mirror of the native
  arkworks `PoseidonSponge`);
* the binary Merkle tree over field elements (`src/merkle/tree.rs`);
* the country-proof circuit front end (`src/circuit/country_proof.rs`)
  including the fixed-point encoding of IEEE-754 double coordinates;
* the location front end (`src/proofs/location.rs`);
* the email front end and WASM bindings (`src/wasm.rs`) and the
  membership-proof serialization (`src/prover.rs`).

The BN254 scalar field is embedded as `ZMod r` for the concrete prime
modulus.  Rust `Vec<Fr>` values are embedded as `List F`; in-place
index assignment becomes `List.set`.  The `HashMap<[u8;32], usize>`
sidecar index is embedded as a function from byte strings to
`Option ℕ` updated insert-by-insert (later inserts shadow earlier
ones, exactly the `HashMap::insert` overwrite semantics).  External
library calls are embedded as follows: the arkworks Poseidon sponge
and its R1CS gadget are transcribed operation by operation; SHA-256
(the `sha2` crate) is implemented concretely per FIPS 180-4;
`hex::decode` is implemented concretely; field serialization
(`serialize_compressed` on `Fr`, 32 little-endian bytes of the
canonical representative) is implemented concretely; the Groth16
proof serialization is abstracted by its documented contract (a
deserializer that parses the serialized prefix of a byte stream and
ignores trailing data).  IEEE-754 binary64 values are embedded
exactly as integers scaled by 2^1074 (every finite double is an
integer multiple of 2^-1074), with round-to-nearest-even
multiplication.
-/

set_option maxRecDepth 100000

namespace ZkVault

/-- Order of the BN254 scalar field (the modulus of `ark_bn254::Fr`). -/
def bn254r : ℕ :=
  21888242871839275222246405745257275088548364400416034343698204186575808495617

instance : NeZero bn254r := ⟨by decide⟩

/-- The scalar field `Fr` of BN254, embedded as the integers mod `r`. -/
abbrev F : Type := ZMod bn254r

/-! ### Byte-string helpers (canonical little-endian field encoding) -/

/-- Little-endian byte encoding of a natural number on `k` bytes. -/
def toBytesLE : ℕ → ℕ → List ℕ
  | 0, _ => []
  | k + 1, n => (n % 256) :: toBytesLE k (n / 256)

/-- Read back a little-endian byte string as a natural number. -/
def fromBytesLE (l : List ℕ) : ℕ := l.foldr (fun b acc => b + 256 * acc) 0

theorem fromBytesLE_toBytesLE : ∀ (k n : ℕ), n < 256 ^ k →
    fromBytesLE (toBytesLE k n) = n := by
  intro k
  induction k with
  | zero => intro n h; simp [pow_zero] at h; simp [h, toBytesLE, fromBytesLE]
  | succ k ih =>
    intro n h
    have hlt : n / 256 < 256 ^ k := by
      rw [Nat.div_lt_iff_lt_mul (by norm_num)]
      calc n < 256 ^ (k + 1) := h
        _ = 256 ^ k * 256 := by ring
    have := ih (n / 256) hlt
    simp only [toBytesLE, fromBytesLE, List.foldr] at this ⊢
    rw [this]
    omega

/-- `Fr::serialize_compressed`: the canonical representative of the field
element, written as 32 little-endian bytes. -/
def serFr (x : F) : List ℕ := toBytesLE 32 x.val

theorem bn254r_lt : bn254r < 256 ^ 32 := by decide

theorem serFr_injective : Function.Injective serFr := by
  intro x y h
  have hx : x.val < 256 ^ 32 := lt_trans (ZMod.val_lt x) bn254r_lt
  have hy : y.val < 256 ^ 32 := lt_trans (ZMod.val_lt y) bn254r_lt
  have : x.val = y.val := by
    have := congrArg fromBytesLE h
    simp only [serFr] at this
    rwa [fromBytesLE_toBytesLE _ _ hx, fromBytesLE_toBytesLE _ _ hy] at this
  exact ZMod.val_injective bn254r this

/-- `Fr::deserialize_compressed` on a byte stream: read exactly 32 bytes
(failing when fewer are available; trailing bytes are ignored, as with any
arkworks `Read`-based deserializer) and reject non-canonical values
(`≥ r`). -/
def deserFr (bytes : List ℕ) : Option F :=
  if bytes.length < 32 then none
  else
    let v := fromBytesLE (bytes.take 32)
    if v < bn254r then some ((v : ℕ) : F) else none

theorem toBytesLE_length : ∀ (k n : ℕ), (toBytesLE k n).length = k := by
  intro k
  induction k with
  | zero => intro n; rfl
  | succ k ih => intro n; simp [toBytesLE, ih]

theorem deserFr_serFr (x : F) : deserFr (serFr x) = some x := by
  have hlen : (serFr x).length = 32 := toBytesLE_length 32 x.val
  have hroundtrip : fromBytesLE ((serFr x).take 32) = x.val := by
    rw [List.take_of_length_le (le_of_eq hlen)]
    exact fromBytesLE_toBytesLE 32 x.val (lt_trans (ZMod.val_lt x) bn254r_lt)
  simp only [deserFr, hlen, hroundtrip]
  rw [if_neg (by omega), if_pos (ZMod.val_lt x)]
  exact congrArg some (ZMod.natCast_rightInverse x)

/-! ### Generic list helpers used by the embedding -/

/-- Enumerate a list with indices starting at `i` (Rust `.enumerate()`). -/
def enumIdx : ℕ → List α → List (ℕ × α)
  | _, [] => []
  | i, a :: l => (i, a) :: enumIdx (i + 1) l

theorem enumIdx_append (i : ℕ) (l r : List α) :
    enumIdx i (l ++ r) = enumIdx i l ++ enumIdx (i + l.length) r := by
  induction l generalizing i with
  | nil => simp [enumIdx]
  | cons a l ih =>
    simp only [List.cons_append, enumIdx, List.length_cons, List.append_eq]
    rw [ih (i + 1)]
    have h2 : i + 1 + l.length = i + (l.length + 1) := by omega
    rw [h2]

/-- A finite map from byte strings to indices, as a lookup function. -/
def mapInsert (m : List ℕ → Option ℕ) (k : List ℕ) (v : ℕ) :
    List ℕ → Option ℕ :=
  fun q => if q = k then some v else m q

theorem getD_set_self {α : Type} (l : List α) (i : ℕ) (v d : α)
    (h : i < l.length) : (l.set i v).getD i d = v := by
  induction l generalizing i with
  | nil => simp at h
  | cons a l ih =>
    cases i with
    | zero => rfl
    | succ i =>
      simp only [List.set, List.getD, List.get?_eq_getElem?]
      have := ih i (by simpa using h)
      simpa [List.getD] using this

theorem getD_set_ne {α : Type} (l : List α) (i j : ℕ) (v d : α)
    (h : i ≠ j) : (l.set i v).getD j d = l.getD j d := by
  induction l generalizing i j with
  | nil => simp [List.set]
  | cons a l ih =>
    cases i with
    | zero =>
      cases j with
      | zero => exact absurd rfl h
      | succ j => rfl
    | succ i =>
      cases j with
      | zero => rfl
      | succ j =>
        simp only [List.set, List.getD, List.get?_eq_getElem?]
        have := ih i j (by omega)
        simpa [List.getD] using this

theorem getD_append_left {α : Type} (l r : List α) (i : ℕ) (d : α)
    (h : i < l.length) : (l ++ r).getD i d = l.getD i d := by
  induction l generalizing i with
  | nil => simp at h
  | cons a l ih =>
    cases i with
    | zero => rfl
    | succ i =>
      simp only [List.cons_append, List.getD, List.get?_eq_getElem?]
      have := ih i (by simpa using h)
      simpa [List.getD] using this

theorem getD_append_right {α : Type} (l r : List α) (i : ℕ) (d : α)
    (h : l.length ≤ i) : (l ++ r).getD i d = r.getD (i - l.length) d := by
  induction l generalizing i with
  | nil => simp
  | cons a l ih =>
    cases i with
    | zero => simp at h
    | succ i =>
      simp only [List.cons_append, List.getD, List.get?_eq_getElem?,
        List.length_cons]
      have := ih i (by simpa using h)
      simpa [List.getD] using this

theorem getD_replicate {α : Type} (k i : ℕ) (a d : α) (h : i < k) :
    (List.replicate k a).getD i d = a := by
  induction k generalizing i with
  | zero => omega
  | succ k ih =>
    cases i with
    | zero => rfl
    | succ i =>
      simp only [List.replicate, List.getD, List.get?_eq_getElem?]
      have := ih i (by omega)
      simpa [List.getD] using this

/-! ### Poseidon sponge — native implementation

Transcribed from `PoseidonHasher` in `src/merkle/hash.rs` together with
the arkworks `PoseidonSponge` (ark-crypto-primitives) operations it
calls.  The sponge state is `[F; rate + capacity]` with the capacity
section first: absorbing adds into `state[capacity + i]`, squeezing
reads `state[capacity + i]`. -/

/-- `PoseidonConfig<Fr>` (ark-crypto-primitives). -/
structure PoseidonConfig where
  full_rounds : ℕ
  partial_rounds : ℕ
  alpha : ℕ
  ark : List (List F)
  mds : List (List F)
  rate : ℕ
  capacity : ℕ

/-- Duplex sponge mode (`DuplexSpongeMode`). -/
inductive SpongeMode where
  | absorbing (next_absorb_index : ℕ)
  | squeezing (next_squeeze_index : ℕ)

/-- Sponge state together with its mode (`PoseidonSponge` minus the
parameters, which are passed separately). -/
structure Sponge where
  state : List F
  mode : SpongeMode

namespace PoseidonNative

/-- `apply_ark`: add the round constants of round `r` to the state. -/
def apply_ark (cfg : PoseidonConfig) (r : ℕ) (state : List F) : List F :=
  state.mapIdx (fun i s => s + (cfg.ark.getD r []).getD i 0)

/-- `apply_s_box`: `x → x^alpha` on the whole state in full rounds, on
`state[0]` only in partial rounds. -/
def apply_s_box (cfg : PoseidonConfig) (is_full : Bool) (state : List F) :
    List F :=
  if is_full then state.map (fun s => s ^ cfg.alpha)
  else
    match state with
    | [] => []
    | s :: rest => s ^ cfg.alpha :: rest

/-- `apply_mds`: `new_state[i] = Σ_j state[j] * mds[i][j]`. -/
def apply_mds (cfg : PoseidonConfig) (state : List F) : List F :=
  state.mapIdx (fun i _ =>
    (enumIdx 0 state).foldl
      (fun acc js => acc + js.2 * ((cfg.mds.getD i []).getD js.1 0)) 0)

/-- One Poseidon round: constants, S-box, MDS. -/
def round (cfg : PoseidonConfig) (is_full : Bool) (state : List F) (r : ℕ) :
    List F :=
  apply_mds cfg (apply_s_box cfg is_full (apply_ark cfg r state))

/-- `permute`: `full_rounds/2` full rounds, `partial_rounds` partial
rounds, then the remaining full rounds. -/
def permute (cfg : PoseidonConfig) (state : List F) : List F :=
  let fr2 := cfg.full_rounds / 2
  let s1 := (List.range' 0 fr2).foldl (round cfg true) state
  let s2 := (List.range' fr2 cfg.partial_rounds).foldl (round cfg false) s1
  (List.range' (fr2 + cfg.partial_rounds) (cfg.full_rounds - fr2)).foldl
    (round cfg true) s2

/-- `PoseidonSponge::new`: zero state, absorbing from rate position 0. -/
def new (cfg : PoseidonConfig) : Sponge :=
  { state := List.replicate (cfg.rate + cfg.capacity) 0
    mode := SpongeMode.absorbing 0 }

/-- Add `x` into the rate portion of the state at offset `pos`
(`state[capacity + pos] += x`). -/
def addRate (cfg : PoseidonConfig) (pos : ℕ) (x : F) (st : List F) :
    List F :=
  st.set (cfg.capacity + pos) (st.getD (cfg.capacity + pos) 0 + x)

/-- `absorb` of a single field element (a `&Fr` input yields exactly one
sponge field element).  When the rate section is full the state is
permuted first.  The non-terminating `rate = 0` corner of the Rust loop
is cut off by absorbing at position 0 directly. -/
def absorbOne (cfg : PoseidonConfig) (sp : Sponge) (x : F) : Sponge :=
  match sp.mode with
  | SpongeMode.absorbing next =>
    if next = cfg.rate then
      let st := permute cfg sp.state
      { state := addRate cfg 0 x st, mode := SpongeMode.absorbing 1 }
    else
      { state := addRate cfg next x sp.state
        mode := SpongeMode.absorbing (next + 1) }
  | SpongeMode.squeezing _ =>
    let st := permute cfg sp.state
    { state := addRate cfg 0 x st, mode := SpongeMode.absorbing 1 }

/-- `squeeze_field_elements(1)`: permute if absorbs are pending (or the
squeeze position is exhausted) and read `state[capacity]`. -/
def squeezeOne (cfg : PoseidonConfig) (sp : Sponge) : F × Sponge :=
  match sp.mode with
  | SpongeMode.absorbing _ =>
    let st := permute cfg sp.state
    (st.getD cfg.capacity 0, { state := st, mode := SpongeMode.squeezing 1 })
  | SpongeMode.squeezing next =>
    if next = cfg.rate then
      let st := permute cfg sp.state
      (st.getD cfg.capacity 0, { state := st, mode := SpongeMode.squeezing 1 })
    else
      (sp.state.getD (cfg.capacity + next) 0,
        { state := sp.state, mode := SpongeMode.squeezing (next + 1) })

end PoseidonNative

/-- `PoseidonHasher` (`src/merkle/hash.rs`): a wrapper around its
`PoseidonConfig`. -/
structure PoseidonHasher where
  config : PoseidonConfig

/-- `PoseidonHasher::hash_two`: absorb `left`, absorb `right`, squeeze
one element. -/
def PoseidonHasher.hash_two (h : PoseidonHasher) (left right : F) : F :=
  (PoseidonNative.squeezeOne h.config
    (PoseidonNative.absorbOne h.config
      (PoseidonNative.absorbOne h.config (PoseidonNative.new h.config) left)
      right)).1

/-- `PoseidonHasher::hash_many`: absorb each element in order, squeeze
one element. -/
def PoseidonHasher.hash_many (h : PoseidonHasher) (elements : List F) : F :=
  (PoseidonNative.squeezeOne h.config
    (elements.foldl (PoseidonNative.absorbOne h.config)
      (PoseidonNative.new h.config))).1

/-- `PoseidonHasher::generate_parameters`, round-constant part: the seed
for round `r`, lane `i` is `(r*width + i) as u64` wrapping-multiplied by
`0x9e3779b97f4a7c15`. -/
def generate_ark (width total_rounds : ℕ) : List (List F) :=
  (List.range total_rounds).map (fun r =>
    (List.range width).map (fun i =>
      ((((r * width + i) * 0x9e3779b97f4a7c15) % 2 ^ 64 : ℕ) : F)))

/-- `PoseidonHasher::generate_parameters`, MDS part:
`mds[i][j] = (F(i+1) + F(width+j+1)).inverse().unwrap_or(1)`. -/
def generate_mds (width : ℕ) : List (List F) :=
  (List.range width).map (fun i =>
    (List.range width).map (fun j =>
      let x : F := ((i + 1 : ℕ) : F)
      let y : F := ((width + j + 1 : ℕ) : F)
      if x + y = 0 then 1 else (x + y)⁻¹))

/-- `PoseidonHasher::default_config`: 8 full rounds, 57 partial rounds,
alpha 5, rate 2, capacity 1, derived constants for width 3. -/
def PoseidonHasher.default_config : PoseidonConfig :=
  { full_rounds := 8
    partial_rounds := 57
    alpha := 5
    ark := generate_ark 3 (8 + 57)
    mds := generate_mds 3
    rate := 2
    capacity := 1 }

/-- `PoseidonHasher::new()`. -/
def PoseidonHasher.mk_new : PoseidonHasher :=
  { config := PoseidonHasher.default_config }

/-! ### Poseidon sponge — in-circuit gadget, value semantics

Transcribed from the arkworks `PoseidonSpongeVar` gadget
(ark-crypto-primitives `constraints.rs`), which `poseidon_hash_two` in
`src/circuit/merkle_proof.rs` instantiates.  Every `FpVar` operation on
witness variables assigns the new witness the field value computed from
the values of its operands, so the gadget is embedded at the level of
those assigned values.  The S-box uses `FpVar::pow_by_constant`, a
big-endian square-and-multiply, embedded as `pow_by_constant` below. -/

namespace PoseidonGadget

/-- Value of `FpVar::pow_by_constant(x, [e])`: big-endian
square-and-multiply over the bits of `e` without leading zeros. -/
def pow_by_constant (x : F) : ℕ → F
  | 0 => 1
  | e + 1 =>
    let r := pow_by_constant x ((e + 1) / 2)
    let s := r * r
    if (e + 1) % 2 = 1 then s * x else s
termination_by e => e
decreasing_by
  omega

theorem pow_by_constant_eq (x : F) : ∀ e : ℕ, pow_by_constant x e = x ^ e := by
  intro e
  induction e using Nat.strong_induction_on with
  | _ e ih =>
    match e with
    | 0 => simp [pow_by_constant]
    | e + 1 =>
      simp only [pow_by_constant]
      rw [ih ((e + 1) / 2) (by omega)]
      by_cases hpar : (e + 1) % 2 = 1
      · rw [if_pos hpar, ← pow_add, ← pow_succ]
        have hexp : (e + 1) / 2 + (e + 1) / 2 + 1 = e + 1 := by omega
        rw [hexp]
      · rw [if_neg hpar, ← pow_add]
        have hexp : (e + 1) / 2 + (e + 1) / 2 = e + 1 := by omega
        rw [hexp]

/-- `PoseidonSpongeVar::apply_ark` (value level). -/
def apply_ark (cfg : PoseidonConfig) (r : ℕ) (state : List F) : List F :=
  state.mapIdx (fun i s => s + (cfg.ark.getD r []).getD i 0)

/-- `PoseidonSpongeVar::apply_s_box` (value level): `pow_by_constant`
with exponent `alpha` on the whole state (full round) or the head
(partial round). -/
def apply_s_box (cfg : PoseidonConfig) (is_full : Bool) (state : List F) :
    List F :=
  if is_full then state.map (fun s => pow_by_constant s cfg.alpha)
  else
    match state with
    | [] => []
    | s :: rest => pow_by_constant s cfg.alpha :: rest

/-- `PoseidonSpongeVar::apply_mds` (value level). -/
def apply_mds (cfg : PoseidonConfig) (state : List F) : List F :=
  state.mapIdx (fun i _ =>
    (enumIdx 0 state).foldl
      (fun acc js => acc + js.2 * ((cfg.mds.getD i []).getD js.1 0)) 0)

/-- One gadget round (value level). -/
def round (cfg : PoseidonConfig) (is_full : Bool) (state : List F) (r : ℕ) :
    List F :=
  apply_mds cfg (apply_s_box cfg is_full (apply_ark cfg r state))

/-- `PoseidonSpongeVar::permute` (value level). -/
def permute (cfg : PoseidonConfig) (state : List F) : List F :=
  let fr2 := cfg.full_rounds / 2
  let s1 := (List.range' 0 fr2).foldl (round cfg true) state
  let s2 := (List.range' fr2 cfg.partial_rounds).foldl (round cfg false) s1
  (List.range' (fr2 + cfg.partial_rounds) (cfg.full_rounds - fr2)).foldl
    (round cfg true) s2

/-- `PoseidonSpongeVar::new` (value level). -/
def new (cfg : PoseidonConfig) : Sponge :=
  { state := List.replicate (cfg.rate + cfg.capacity) 0
    mode := SpongeMode.absorbing 0 }

/-- Rate-section addition (value level). -/
def addRate (cfg : PoseidonConfig) (pos : ℕ) (x : F) (st : List F) :
    List F :=
  st.set (cfg.capacity + pos) (st.getD (cfg.capacity + pos) 0 + x)

/-- `PoseidonSpongeVar::absorb` of one variable (value level). -/
def absorbOne (cfg : PoseidonConfig) (sp : Sponge) (x : F) : Sponge :=
  match sp.mode with
  | SpongeMode.absorbing next =>
    if next = cfg.rate then
      let st := permute cfg sp.state
      { state := addRate cfg 0 x st, mode := SpongeMode.absorbing 1 }
    else
      { state := addRate cfg next x sp.state
        mode := SpongeMode.absorbing (next + 1) }
  | SpongeMode.squeezing _ =>
    let st := permute cfg sp.state
    { state := addRate cfg 0 x st, mode := SpongeMode.absorbing 1 }

/-- `PoseidonSpongeVar::squeeze_field_elements(1)` (value level). -/
def squeezeOne (cfg : PoseidonConfig) (sp : Sponge) : F × Sponge :=
  match sp.mode with
  | SpongeMode.absorbing _ =>
    let st := permute cfg sp.state
    (st.getD cfg.capacity 0, { state := st, mode := SpongeMode.squeezing 1 })
  | SpongeMode.squeezing next =>
    if next = cfg.rate then
      let st := permute cfg sp.state
      (st.getD cfg.capacity 0, { state := st, mode := SpongeMode.squeezing 1 })
    else
      (sp.state.getD (cfg.capacity + next) 0,
        { state := sp.state, mode := SpongeMode.squeezing (next + 1) })

end PoseidonGadget

/-- `poseidon_hash_two` from `src/circuit/merkle_proof.rs` (value level):
fresh gadget sponge, absorb `left`, absorb `right`, squeeze one. -/
def poseidon_hash_two (cfg : PoseidonConfig) (left right : F) : F :=
  (PoseidonGadget.squeezeOne cfg
    (PoseidonGadget.absorbOne cfg
      (PoseidonGadget.absorbOne cfg (PoseidonGadget.new cfg) left)
      right)).1

/-! Agreement of the gadget with the native hasher. -/

theorem gadget_s_box_eq (cfg : PoseidonConfig) (b : Bool) (st : List F) :
    PoseidonGadget.apply_s_box cfg b st = PoseidonNative.apply_s_box cfg b st := by
  cases b with
  | false =>
    cases st with
    | nil => rfl
    | cons s rest =>
      simp [PoseidonGadget.apply_s_box, PoseidonNative.apply_s_box,
        PoseidonGadget.pow_by_constant_eq]
  | true =>
    simp only [PoseidonGadget.apply_s_box, PoseidonNative.apply_s_box, if_pos]
    exact List.map_congr_left (fun s _ => PoseidonGadget.pow_by_constant_eq s cfg.alpha)

theorem gadget_round_eq (cfg : PoseidonConfig) (b : Bool) (st : List F) (r : ℕ) :
    PoseidonGadget.round cfg b st r = PoseidonNative.round cfg b st r := by
  unfold PoseidonGadget.round PoseidonNative.round
  rw [gadget_s_box_eq]
  rfl

theorem gadget_permute_eq (cfg : PoseidonConfig) (st : List F) :
    PoseidonGadget.permute cfg st = PoseidonNative.permute cfg st := by
  unfold PoseidonGadget.permute PoseidonNative.permute
  have hr : ∀ (b : Bool) (l : List ℕ) (s : List F),
      l.foldl (PoseidonGadget.round cfg b) s = l.foldl (PoseidonNative.round cfg b) s := by
    intro b l
    induction l with
    | nil => intro s; rfl
    | cons x xs ih => intro s; simp only [List.foldl]; rw [gadget_round_eq]; exact ih _
  rw [hr, hr, hr]

theorem gadget_absorbOne_eq (cfg : PoseidonConfig) (sp : Sponge) (x : F) :
    PoseidonGadget.absorbOne cfg sp x = PoseidonNative.absorbOne cfg sp x := by
  unfold PoseidonGadget.absorbOne PoseidonNative.absorbOne
  cases sp.mode with
  | absorbing next =>
    by_cases h : next = cfg.rate <;>
      simp [h, gadget_permute_eq, PoseidonGadget.addRate, PoseidonNative.addRate]
  | squeezing next =>
    simp [gadget_permute_eq, PoseidonGadget.addRate, PoseidonNative.addRate]

theorem gadget_squeezeOne_eq (cfg : PoseidonConfig) (sp : Sponge) :
    PoseidonGadget.squeezeOne cfg sp = PoseidonNative.squeezeOne cfg sp := by
  unfold PoseidonGadget.squeezeOne PoseidonNative.squeezeOne
  cases sp.mode with
  | absorbing next => simp [gadget_permute_eq]
  | squeezing next =>
    by_cases h : next = cfg.rate <;> simp [h, gadget_permute_eq]

/-! ### Merkle tree (`src/merkle/tree.rs`) -/

/-- `MAX_DEPTH` from `src/merkle/tree.rs` (documented there as the
maximum tree depth). -/
def MAX_DEPTH : ℕ := 30

/-- `MerklePath`. -/
structure MerklePath where
  siblings : List F
  indices : List Bool
  leaf : F

/-- `MerklePath::compute_root`: walk from the leaf to the root, hashing
with the sibling on the side given by the index bit. -/
def MerklePath.compute_root (p : MerklePath) (hasher : PoseidonHasher) : F :=
  (p.siblings.zip p.indices).foldl
    (fun current si =>
      if si.2 then hasher.hash_two si.1 current
      else hasher.hash_two current si.1)
    p.leaf

/-- `MerklePath::verify`. -/
def MerklePath.verify (p : MerklePath) (root : F) (hasher : PoseidonHasher) :
    Bool :=
  decide (p.compute_root hasher = root)

/-- `MerklePath::depth`. -/
def MerklePath.path_depth (p : MerklePath) : ℕ := p.siblings.length

/-- `MerkleTree`: flat level-order node array (embedded as a list),
depth, leaf count, hasher, and the leaf-value-to-index sidecar map
(embedded as a lookup function on the 32-byte leaf encodings). -/
structure MerkleTree where
  nodes : List F
  depth : ℕ
  num_leaves : ℕ
  hasher : PoseidonHasher
  leaf_index : List ℕ → Option ℕ

namespace MerkleTree

/-- `Vec::resize(k, v)`: truncate or pad with `v` to length `k`. -/
def resize (l : List F) (k : ℕ) (v : F) : List F :=
  l.take k ++ List.replicate (k - l.length) v

/-- `MerkleTree::compute_depth`: 1 for at most one leaf, else
`(n-1).ilog2() + 1`. -/
def compute_depth (n : ℕ) : ℕ :=
  if n ≤ 1 then 1 else Nat.log2 (n - 1) + 1

/-- One step of the bottom-up build loop:
`nodes[i] = hash(nodes[2i+1], nodes[2i+2])`. -/
def buildStep (hasher : PoseidonHasher) (ns : List F) (i : ℕ) : List F :=
  ns.set i (hasher.hash_two (ns.getD (2 * i + 1) 0) (ns.getD (2 * i + 2) 0))

/-- The build loop `for i in (0..leaf_start).rev()`: process index
`k-1`, then `k-2`, …, then `0`. -/
def buildDown (hasher : PoseidonHasher) : ℕ → List F → List F
  | 0, ns => ns
  | k + 1, ns => buildDown hasher k (buildStep hasher ns k)

/-- `MerkleTree::empty_tree`. -/
def empty_tree (hasher : PoseidonHasher) : MerkleTree :=
  { nodes := [0]
    depth := 0
    num_leaves := 0
    hasher := hasher
    leaf_index := fun _ => none }

/-- `MerkleTree::with_hasher`: pad the leaves to the next power of two,
place them on the last level (the node array is allocated zero-filled
and the leaves copied in, i.e. `replicate leaf_start 0 ++ padded`),
build the internal nodes bottom-up, and build the sidecar map by
inserting every real (non-padding) leaf. -/
def with_hasher (leaves : List F) (hasher : PoseidonHasher) : MerkleTree :=
  if leaves.isEmpty then empty_tree hasher
  else
    let num_leaves := leaves.length
    let depth := compute_depth num_leaves
    let padded_size := 2 ^ depth
    let padded_leaves := resize leaves padded_size 0
    let leaf_start := padded_size - 1
    let nodes0 := List.replicate leaf_start (0 : F) ++ padded_leaves
    let nodes := buildDown hasher leaf_start nodes0
    let leaf_index :=
      (enumIdx 0 padded_leaves).foldl
        (fun m p => if p.1 < num_leaves then mapInsert m (serFr p.2) p.1 else m)
        (fun _ => none)
    { nodes := nodes
      depth := depth
      num_leaves := num_leaves
      hasher := hasher
      leaf_index := leaf_index }

/-- `MerkleTree::new`. -/
def mk_new (leaves : List F) : MerkleTree :=
  with_hasher leaves PoseidonHasher.mk_new

/-- `MerkleTree::root`. -/
def root (t : MerkleTree) : F := t.nodes.getD 0 0

/-- `MerkleTree::find_leaf`. -/
def find_leaf (t : MerkleTree) (leaf : F) : Option ℕ :=
  t.leaf_index (serFr leaf)

/-- `MerkleTree::contains`. -/
def contains (t : MerkleTree) (leaf : F) : Bool :=
  (t.find_leaf leaf).isSome

/-- The `while node_index > 0` loop of `MerkleTree::get_path`, returning
the collected siblings and direction bits.  A node at an even index is a
right child (children of `i` sit at `2i+1` and `2i+2`); the parent of
`t` is `(t-1)/2`. -/
def pathLoop (ns : List F) : ℕ → List F × List Bool
  | 0 => ([], [])
  | t + 1 =>
    let is_right := (t + 1) % 2 = 0
    let sibling_index := if is_right then t else t + 2
    let rest := pathLoop ns (t / 2)
    (ns.getD sibling_index 0 :: rest.1, is_right :: rest.2)
termination_by t => t
decreasing_by
  omega

/-- `MerkleTree::get_path`. -/
def get_path (t : MerkleTree) (leaf_index : ℕ) : Option MerklePath :=
  if leaf_index ≥ t.num_leaves then none
  else
    let padded_size := 2 ^ t.depth
    let leaf_start := padded_size - 1
    let node_index := leaf_start + leaf_index
    let leaf := t.nodes.getD node_index 0
    let sp := pathLoop t.nodes node_index
    some { siblings := sp.1, indices := sp.2, leaf := leaf }

/-- `MerkleTree::get_path_for_leaf`. -/
def get_path_for_leaf (t : MerkleTree) (leaf : F) : Option MerklePath :=
  (t.find_leaf leaf).bind t.get_path

end MerkleTree

/-! ### Merkle tree invariants and path correctness -/

namespace MerkleTree

theorem buildStep_length (hasher : PoseidonHasher) (ns : List F) (i : ℕ) :
    (buildStep hasher ns i).length = ns.length := by
  simp [buildStep]

theorem buildDown_length (hasher : PoseidonHasher) :
    ∀ (k : ℕ) (ns : List F), (buildDown hasher k ns).length = ns.length := by
  intro k
  induction k with
  | zero => intro ns; rfl
  | succ k ih =>
    intro ns
    rw [buildDown, ih, buildStep_length]

theorem buildDown_getD_ge (hasher : PoseidonHasher) :
    ∀ (k : ℕ) (ns : List F) (j : ℕ), k ≤ j →
      (buildDown hasher k ns).getD j 0 = ns.getD j 0 := by
  intro k
  induction k with
  | zero => intro ns j _; rfl
  | succ k ih =>
    intro ns j hj
    simp only [buildDown]
    rw [ih (buildStep hasher ns k) j (by omega)]
    rw [buildStep, getD_set_ne ns k j _ _ (by omega)]

theorem buildDown_rec (hasher : PoseidonHasher) :
    ∀ (k : ℕ) (ns : List F), k ≤ ns.length → ∀ j, j < k →
      (buildDown hasher k ns).getD j 0 =
        hasher.hash_two ((buildDown hasher k ns).getD (2 * j + 1) 0)
          ((buildDown hasher k ns).getD (2 * j + 2) 0) := by
  intro k
  induction k with
  | zero => intro ns _ j hj; omega
  | succ k ih =>
    intro ns hk j hj
    simp only [buildDown]
    by_cases hjk : j < k
    · exact ih (buildStep hasher ns k) (by rw [buildStep_length]; omega) j hjk
    · have hjeq : j = k := by omega
      subst hjeq
      rw [buildDown_getD_ge hasher j _ j (le_refl j),
        buildDown_getD_ge hasher j _ (2 * j + 1) (by omega),
        buildDown_getD_ge hasher j _ (2 * j + 2) (by omega),
        buildStep,
        getD_set_self _ _ _ _ (by omega),
        getD_set_ne _ _ _ _ _ (by omega),
        getD_set_ne _ _ _ _ _ (by omega)]

/-- Replaying the loop of `get_path` from any node through the
verification fold of `compute_root` reconstructs the root, provided the
node array has odd length and satisfies the parent-hash recurrence. -/
theorem pathLoop_compute (hasher : PoseidonHasher) (ns : List F)
    (hodd : ns.length % 2 = 1)
    (hrec : ∀ j, 2 * j + 2 < ns.length →
      ns.getD j 0 =
        hasher.hash_two (ns.getD (2 * j + 1) 0) (ns.getD (2 * j + 2) 0)) :
    ∀ t, t < ns.length →
      ((pathLoop ns t).1.zip (pathLoop ns t).2).foldl
          (fun current si =>
            if si.2 then hasher.hash_two si.1 current
            else hasher.hash_two current si.1)
          (ns.getD t 0) =
        ns.getD 0 0 := by
  intro t
  induction t using Nat.strong_induction_on with
  | _ t ih =>
    match t with
    | 0 => intro _; simp [pathLoop]
    | t + 1 =>
      intro hlt
      by_cases hpar : (t + 1) % 2 = 0
      · -- current node is a right child: t + 1 = 2*(t/2) + 2
        have hd : decide ((t + 1) % 2 = 0) = true := decide_eq_true hpar
        simp only [pathLoop, hd, if_pos hpar, List.zip_cons_cons,
          List.foldl_cons, if_true]
        have hstep := hrec (t / 2) (by omega)
        rw [show 2 * (t / 2) + 1 = t by omega,
          show 2 * (t / 2) + 2 = t + 1 by omega] at hstep
        rw [← hstep]
        exact ih (t / 2) (by omega) (by omega)
      · -- current node is a left child: t + 1 = 2*(t/2) + 1
        have hd : decide ((t + 1) % 2 = 0) = false :=
          decide_eq_false hpar
        have ht2 : t + 2 < ns.length := by omega
        simp only [pathLoop, hd, if_neg hpar, List.zip_cons_cons,
          List.foldl_cons, if_false]
        have hstep := hrec (t / 2) (by omega)
        rw [show 2 * (t / 2) + 1 = t + 1 by omega,
          show 2 * (t / 2) + 2 = t + 2 by omega] at hstep
        rw [← hstep]
        exact ih (t / 2) (by omega) (by omega)

theorem le_pow_compute_depth (n : ℕ) (hn : 1 ≤ n) : n ≤ 2 ^ compute_depth n := by
  unfold compute_depth
  by_cases h1 : n ≤ 1
  · rw [if_pos h1]; omega
  · rw [if_neg h1, Nat.log2_eq_log_two]
    have := Nat.lt_pow_succ_log_self (b := 2) (by norm_num) (n - 1)
    omega

theorem resize_length (l : List F) (k : ℕ) (v : F) (h : l.length ≤ k) :
    (resize l k v).length = k := by
  simp only [resize, List.length_append, List.length_replicate,
    List.length_take]
  omega

/-- Shape of a tree built by `with_hasher` from a non-empty leaf list:
projections, node-array length, and the parent-hash recurrence. -/
theorem with_hasher_spec (leaves : List F) (hasher : PoseidonHasher)
    (h : leaves ≠ []) :
    (with_hasher leaves hasher).num_leaves = leaves.length ∧
    (with_hasher leaves hasher).depth = compute_depth leaves.length ∧
    (with_hasher leaves hasher).hasher = hasher ∧
    (with_hasher leaves hasher).nodes.length =
      2 * 2 ^ compute_depth leaves.length - 1 ∧
    (∀ j, 2 * j + 2 < (with_hasher leaves hasher).nodes.length →
      (with_hasher leaves hasher).nodes.getD j 0 =
        hasher.hash_two ((with_hasher leaves hasher).nodes.getD (2 * j + 1) 0)
          ((with_hasher leaves hasher).nodes.getD (2 * j + 2) 0)) := by
  have hne : leaves.isEmpty = false := by
    cases leaves with
    | nil => exact absurd rfl h
    | cons a l => rfl
  have hn1 : 1 ≤ leaves.length := by
    cases leaves with
    | nil => exact absurd rfl h
    | cons a l => simp
  have hple : leaves.length ≤ 2 ^ compute_depth leaves.length :=
    le_pow_compute_depth _ hn1
  have hp1 : 1 ≤ 2 ^ compute_depth leaves.length := Nat.one_le_two_pow
  have hlen0 :
      (List.replicate (2 ^ compute_depth leaves.length - 1) (0 : F) ++
        resize leaves (2 ^ compute_depth leaves.length) 0).length =
      2 * 2 ^ compute_depth leaves.length - 1 := by
    rw [List.length_append, List.length_replicate, resize_length _ _ _ hple]
    omega
  simp only [with_hasher, hne, Bool.false_eq_true, if_false]
  refine ⟨trivial, trivial, trivial, ?_, ?_⟩

  · rw [buildDown_length, hlen0]
  · intro j hj
    rw [buildDown_length, hlen0] at hj
    exact buildDown_rec hasher _ _ (by rw [hlen0]; omega) j (by omega)

/-- Core correctness of `get_path` for any tree whose fields satisfy the
`with_hasher` shape invariants. -/
theorem get_path_spec (t : MerkleTree)
    (hlen : t.nodes.length = 2 * 2 ^ t.depth - 1)
    (hrec : ∀ j, 2 * j + 2 < t.nodes.length →
      t.nodes.getD j 0 =
        t.hasher.hash_two (t.nodes.getD (2 * j + 1) 0)
          (t.nodes.getD (2 * j + 2) 0))
    (hn : t.num_leaves ≤ 2 ^ t.depth) (i : ℕ) (hi : i < t.num_leaves) :
    (t.get_path i).map (fun p => p.compute_root t.hasher) = some t.root := by
  have hp1 : 1 ≤ 2 ^ t.depth := Nat.one_le_two_pow
  have hti : 2 ^ t.depth - 1 + i < t.nodes.length := by omega
  have hodd : t.nodes.length % 2 = 1 := by omega
  unfold get_path
  rw [if_neg (by omega)]
  simp only [Option.map_some]
  unfold MerklePath.compute_root root
  exact congrArg some
    (pathLoop_compute t.hasher t.nodes hodd hrec (2 ^ t.depth - 1 + i) hti)

end MerkleTree

/-! ### Claim theorems: Poseidon agreement and Merkle tree -/

/-- C2: for every Poseidon configuration and every pair of field
elements, the value assigned to the output witness variable of the
in-circuit `poseidon_hash_two` gadget equals the native
`PoseidonHasher::hash_two` on the same inputs; in particular this holds
for the repository's `default_config`, which both sides share. -/
theorem poseidon_gadget_agrees_with_native (cfg : PoseidonConfig)
    (a b : F) :
    poseidon_hash_two cfg a b = PoseidonHasher.hash_two ⟨cfg⟩ a b := by
  unfold poseidon_hash_two PoseidonHasher.hash_two
  rw [show PoseidonGadget.new cfg = PoseidonNative.new cfg from rfl,
    gadget_absorbOne_eq, gadget_absorbOne_eq, gadget_squeezeOne_eq]

/-- C1: for every leaf list `L` and every index `i < |L|`,
`MerkleTree::new(L).get_path(i)` returns a path, that path's
`compute_root` with the tree's hasher equals the tree's root, and
`verify` against the root returns `true`. -/
theorem merkle_path_computes_root (L : List F) (i : ℕ) (hi : i < L.length) :
    ((MerkleTree.mk_new L).get_path i).isSome = true ∧
    ((MerkleTree.mk_new L).get_path i).map
        (fun p => p.compute_root (MerkleTree.mk_new L).hasher) =
      some ((MerkleTree.mk_new L).root) ∧
    ((MerkleTree.mk_new L).get_path i).map
        (fun p => p.verify ((MerkleTree.mk_new L).root)
          (MerkleTree.mk_new L).hasher) =
      some true := by
  have hne : L ≠ [] := by
    intro h
    subst h
    simp at hi
  obtain ⟨hn, hd, hh, hlen, hrec⟩ :=
    MerkleTree.with_hasher_spec L PoseidonHasher.mk_new hne
  have hmap :
      ((MerkleTree.mk_new L).get_path i).map
          (fun p => p.compute_root (MerkleTree.mk_new L).hasher) =
        some ((MerkleTree.mk_new L).root) := by
    refine MerkleTree.get_path_spec (MerkleTree.mk_new L) ?_ ?_ ?_ i ?_
    · rw [show MerkleTree.mk_new L =
        MerkleTree.with_hasher L PoseidonHasher.mk_new from rfl, hlen, hd]
    · rw [show MerkleTree.mk_new L =
        MerkleTree.with_hasher L PoseidonHasher.mk_new from rfl, hh]
      exact hrec
    · rw [show MerkleTree.mk_new L =
        MerkleTree.with_hasher L PoseidonHasher.mk_new from rfl, hn, hd]
      exact MerkleTree.le_pow_compute_depth L.length (by omega)
    · rw [show MerkleTree.mk_new L =
        MerkleTree.with_hasher L PoseidonHasher.mk_new from rfl, hn]
      exact hi
  have hsome : ((MerkleTree.mk_new L).get_path i).isSome = true := by
    cases hgp : (MerkleTree.mk_new L).get_path i with
    | none => rw [hgp] at hmap; exact absurd hmap (by simp)
    | some p => rfl
  refine ⟨hsome, hmap, ?_⟩
  cases hgp : (MerkleTree.mk_new L).get_path i with
  | none => rw [hgp] at hmap; exact absurd hmap (by simp)
  | some p =>
    rw [hgp] at hmap
    have hcr : p.compute_root (MerkleTree.mk_new L).hasher =
        (MerkleTree.mk_new L).root := Option.some.inj hmap
    show some (p.verify ((MerkleTree.mk_new L).root)
      (MerkleTree.mk_new L).hasher) = some true
    rw [MerklePath.verify, hcr]
    simp

/-- Witness for C1 at the concrete tree over leaves `[1, 2, 3]` and
index `1`. -/
theorem merkle_path_computes_root_witness :
    ((MerkleTree.mk_new [1, 2, 3]).get_path 1).isSome = true ∧
    ((MerkleTree.mk_new [1, 2, 3]).get_path 1).map
        (fun p => p.compute_root (MerkleTree.mk_new [1, 2, 3]).hasher) =
      some ((MerkleTree.mk_new [1, 2, 3]).root) ∧
    ((MerkleTree.mk_new [1, 2, 3]).get_path 1).map
        (fun p => p.verify ((MerkleTree.mk_new [1, 2, 3]).root)
          (MerkleTree.mk_new [1, 2, 3]).hasher) =
      some true :=
  merkle_path_computes_root [1, 2, 3] 1 (by decide)

/-- The depth of any tree built from a non-empty leaf list is
`compute_depth` of the leaf count. -/
theorem with_hasher_depth (L : List F) (hasher : PoseidonHasher)
    (h : L ≠ []) :
    (MerkleTree.with_hasher L hasher).depth =
      MerkleTree.compute_depth L.length :=
  (MerkleTree.with_hasher_spec L hasher h).2.1

theorem compute_depth_eq_clog (n : ℕ) (hn : 1 ≤ n) :
    MerkleTree.compute_depth n = Nat.clog 2 (max n 2) := by
  unfold MerkleTree.compute_depth
  by_cases h1 : n ≤ 1
  · rw [if_pos h1]
    have hn1 : n = 1 := by omega
    subst hn1
    have hle : Nat.clog 2 2 ≤ 1 :=
      (Nat.le_pow_iff_clog_le (by norm_num)).mp (by norm_num)
    have hge : 0 < Nat.clog 2 2 :=
      (Nat.pow_lt_iff_lt_clog (by norm_num)).mp (by norm_num)
    simp only [show max 1 2 = 2 by omega]
    omega
  · rw [if_neg h1, Nat.log2_eq_log_two]
    have hmax : max n 2 = n := by omega
    rw [hmax]
    have hub : n ≤ 2 ^ (Nat.log 2 (n - 1) + 1) := by
      have := Nat.lt_pow_succ_log_self (b := 2) (by norm_num) (n - 1)
      omega
    have hle : Nat.clog 2 n ≤ Nat.log 2 (n - 1) + 1 :=
      (Nat.le_pow_iff_clog_le (by norm_num)).mp hub
    have hlb : 2 ^ Nat.log 2 (n - 1) < n := by
      have := Nat.pow_log_le_self 2 (show n - 1 ≠ 0 by omega)
      omega
    have hge : Nat.log 2 (n - 1) < Nat.clog 2 n :=
      (Nat.pow_lt_iff_lt_clog (by norm_num)).mp hlb
    omega

/-- C7: `MerkleTree::new` on the empty list yields a single-node tree
with root `0` and depth `0`; a single leaf yields depth `1`; and for
every non-empty leaf list the depth is `⌈log₂ max(|L|, 2)⌉`. -/
theorem merkle_degenerate_and_depth :
    (MerkleTree.mk_new []).nodes.length = 1 ∧
    (MerkleTree.mk_new []).root = 0 ∧
    (MerkleTree.mk_new []).depth = 0 ∧
    (∀ x : F, (MerkleTree.mk_new [x]).depth = 1) ∧
    (∀ L : List F, L ≠ [] →
      (MerkleTree.mk_new L).depth = Nat.clog 2 (max L.length 2)) := by
  refine ⟨rfl, rfl, rfl, ?_, ?_⟩
  · intro x
    rw [MerkleTree.mk_new, with_hasher_depth [x] _ (by simp)]
    rfl
  · intro L hL
    rw [MerkleTree.mk_new, with_hasher_depth L _ hL,
      compute_depth_eq_clog L.length (by cases L with
        | nil => exact absurd rfl hL
        | cons a l => simp)]

/-- Witness for C7 (the depth clause has a hypothesis) at `L = [5, 6, 7]`. -/
theorem merkle_degenerate_and_depth_witness :
    (MerkleTree.mk_new ([5, 6, 7] : List F)).depth =
      Nat.clog 2 (max ([5, 6, 7] : List F).length 2) :=
  merkle_degenerate_and_depth.2.2.2.2 [5, 6, 7] (by simp)

/-- Depth projection of `with_hasher` on a non-empty leaf list, in the
lightweight `isEmpty` form. -/
theorem with_hasher_depth_eq (L : List F) (hasher : PoseidonHasher)
    (h : L.isEmpty = false) :
    (MerkleTree.with_hasher L hasher).depth =
      MerkleTree.compute_depth L.length := by
  simp only [MerkleTree.with_hasher, h, Bool.false_eq_true, if_false]

/-- C6 (code evaluated at the failing input): `MAX_DEPTH` is declared as
30, yet `MerkleTree::new` on `2^30 + 1` leaves happily returns a tree of
depth `31 > MAX_DEPTH`; no depth check is performed anywhere in the
constructor. -/
theorem merkle_depth_limit_not_enforced :
    MAX_DEPTH = 30 ∧
    (MerkleTree.mk_new (List.replicate (2 ^ 30 + 1) 0)).depth = 31 := by
  refine ⟨rfl, ?_⟩
  have hne : (List.replicate (2 ^ 30 + 1) (0 : F)).isEmpty = false := by
    rw [List.replicate_succ]
    rfl
  have hlog : Nat.log2 (2 ^ 30) = 30 := by
    rw [Nat.log2_eq_log_two, Nat.log_pow (by norm_num)]
  have h230 : 2 ^ 30 + 1 - 1 = 2 ^ 30 := by omega
  rw [MerkleTree.mk_new, with_hasher_depth_eq _ _ hne, List.length_replicate,
    MerkleTree.compute_depth, if_neg (by norm_num), h230, hlog]

/-! ### Sidecar map lookup: last occurrence wins (C10) -/

namespace MerkleTree

/-- The sidecar-map build loop of `with_hasher`, parameterized by the
number of real leaves `nl`. -/
def buildMap (nl : ℕ) (entries : List (ℕ × F)) (m0 : List ℕ → Option ℕ) :
    List ℕ → Option ℕ :=
  entries.foldl
    (fun m p => if p.1 < nl then mapInsert m (serFr p.2) p.1 else m) m0

/-- Entries whose index is at least `nl` (padding entries) are skipped
entirely by the build loop. -/
theorem buildMap_skip (nl : ℕ) :
    ∀ (l : List F) (j : ℕ), nl ≤ j → ∀ (m0 : List ℕ → Option ℕ),
      buildMap nl (enumIdx j l) m0 = m0 := by
  intro l
  induction l with
  | nil => intro j _ m0; rfl
  | cons a l ih =>
    intro j hj m0
    simp only [buildMap, enumIdx, List.foldl_cons]
    rw [if_neg (by omega)]
    exact ih (j + 1) (by omega) m0

/-- If a value does not occur in the (real) suffix being folded, its
lookup is unchanged. -/
theorem buildMap_lookup_of_not_mem (nl : ℕ) :
    ∀ (l : List F) (j : ℕ) (m0 : List ℕ → Option ℕ) (v : F),
      (∀ p, p < l.length → l.getD p 0 ≠ v) →
      buildMap nl (enumIdx j l) m0 (serFr v) = m0 (serFr v) := by
  intro l
  induction l with
  | nil => intro j m0 v _; rfl
  | cons a l ih =>
    intro j m0 v hnone
    have hav : a ≠ v := hnone 0 (by simp)
    simp only [buildMap, enumIdx, List.foldl_cons]
    have htail : ∀ p, p < l.length → l.getD p 0 ≠ v := by
      intro p hp
      exact hnone (p + 1) (by simpa using Nat.succ_lt_succ hp)
    by_cases hjl : j < nl
    · rw [if_pos hjl]
      have := ih (j + 1) (mapInsert m0 (serFr a) j) v htail
      rw [show buildMap nl (enumIdx (j + 1) l)
          (mapInsert m0 (serFr a) j) (serFr v) =
          (List.foldl (fun m p =>
            if p.1 < nl then mapInsert m (serFr p.2) p.1 else m)
            (mapInsert m0 (serFr a) j) (enumIdx (j + 1) l)) (serFr v)
          from rfl] at this
      rw [this, mapInsert,
        if_neg (fun hk => hav (serFr_injective hk).symm)]
    · rw [if_neg hjl]
      exact ih (j + 1) m0 v htail

/-- The lookup of `v` after the build loop is the largest real index at
which `v` occurs. -/
theorem buildMap_lookup_last (nl : ℕ) :
    ∀ (l : List F) (j : ℕ) (m0 : List ℕ → Option ℕ) (v : F) (idx : ℕ),
      j + l.length ≤ nl →
      j ≤ idx → idx < j + l.length →
      l.getD (idx - j) 0 = v →
      (∀ p, idx - j < p → p < l.length → l.getD p 0 ≠ v) →
      buildMap nl (enumIdx j l) m0 (serFr v) = some idx := by
  intro l
  induction l with
  | nil => intro j m0 v idx _ _ h3 _ _; simp at h3; omega
  | cons a l ih =>
    intro j m0 v idx hreal hj1 hj2 hval hlast
    simp only [buildMap, enumIdx, List.foldl_cons]
    rw [if_pos (by simp at hreal; omega)]
    by_cases hidx : idx = j
    · subst hidx
      have hav : a = v := by simpa using hval
      subst hav
      have hnone : ∀ p, p < l.length → l.getD p 0 ≠ a := by
        intro p hp
        have := hlast (p + 1) (by omega) (by simpa using Nat.succ_lt_succ hp)
        simpa using this
      have := buildMap_lookup_of_not_mem nl l (idx + 1)
        (mapInsert m0 (serFr a) idx) a hnone
      rw [show buildMap nl (enumIdx (idx + 1) l)
          (mapInsert m0 (serFr a) idx) (serFr a) =
          (List.foldl (fun m p =>
            if p.1 < nl then mapInsert m (serFr p.2) p.1 else m)
            (mapInsert m0 (serFr a) idx) (enumIdx (idx + 1) l)) (serFr a)
          from rfl] at this
      rw [this, mapInsert, if_pos rfl]
    · have hgt : j + 1 ≤ idx := by omega
      have hval2 : l.getD (idx - (j + 1)) 0 = v := by
        have : idx - j = (idx - (j + 1)) + 1 := by omega
        rw [this] at hval
        simpa using hval
      have hlast2 : ∀ p, idx - (j + 1) < p → p < l.length → l.getD p 0 ≠ v := by
        intro p hp1 hp2
        have := hlast (p + 1) (by omega) (by simpa using Nat.succ_lt_succ hp2)
        simpa using this
      exact ih (j + 1) (mapInsert m0 (serFr a) j) v idx
        (by simp at hreal; omega) hgt (by simp at hj2; omega) hval2 hlast2

/-- The sidecar map of a tree built from a non-empty leaf list, reduced
to a fold over the real leaves only. -/
theorem with_hasher_leaf_index (L : List F) (hasher : PoseidonHasher)
    (h : L.isEmpty = false) (k : List ℕ) :
    (with_hasher L hasher).leaf_index k =
      buildMap L.length (enumIdx 0 L) (fun _ => none) k := by
  have hn1 : 1 ≤ L.length := by
    cases L with
    | nil => simp at h
    | cons a l => simp
  have hple : L.length ≤ 2 ^ compute_depth L.length :=
    le_pow_compute_depth _ hn1
  simp only [with_hasher, h, Bool.false_eq_true, if_false]
  have hres : resize L (2 ^ compute_depth L.length) 0 =
      L ++ List.replicate (2 ^ compute_depth L.length - L.length) 0 := by
    rw [resize, List.take_of_length_le hple]
  rw [hres, enumIdx_append]
  show buildMap L.length
      (enumIdx 0 L ++ enumIdx (0 + L.length)
        (List.replicate (2 ^ compute_depth L.length - L.length) 0))
      (fun _ => none) k =
    buildMap L.length (enumIdx 0 L) (fun _ => none) k
  rw [buildMap, List.foldl_append]
  rw [show (List.foldl (fun m p =>
      if p.1 < L.length then mapInsert m (serFr p.2) p.1 else m)
      (fun _ => none) (enumIdx 0 L)) =
      buildMap L.length (enumIdx 0 L) (fun _ => none) from rfl]
  rw [show (List.foldl (fun m p =>
      if p.1 < L.length then mapInsert m (serFr p.2) p.1 else m)
      (buildMap L.length (enumIdx 0 L) (fun _ => none))
      (enumIdx (0 + L.length)
        (List.replicate (2 ^ compute_depth L.length - L.length) 0))) =
      buildMap L.length
        (enumIdx (0 + L.length)
          (List.replicate (2 ^ compute_depth L.length - L.length) 0))
        (buildMap L.length (enumIdx 0 L) (fun _ => none)) from rfl]
  rw [buildMap_skip L.length _ (0 + L.length) (by omega)]

end MerkleTree

/-- C10: when a value occurs at several indices of the leaf list,
`find_leaf` returns the largest such index (the sidecar map keeps the
last real occurrence), and `get_path_for_leaf` returns the path for
that index. -/
theorem merkle_find_leaf_last_occurrence (L : List F) (v : F) (idx : ℕ)
    (hidx : idx < L.length) (hval : L.getD idx 0 = v)
    (hlast : ∀ j, idx < j → j < L.length → L.getD j 0 ≠ v) :
    (MerkleTree.mk_new L).find_leaf v = some idx ∧
    (MerkleTree.mk_new L).get_path_for_leaf v =
      (MerkleTree.mk_new L).get_path idx := by
  have hne : L.isEmpty = false := by
    cases L with
    | nil => simp at hidx
    | cons a l => rfl
  have hfind : (MerkleTree.mk_new L).find_leaf v = some idx := by
    rw [MerkleTree.find_leaf, MerkleTree.mk_new,
      MerkleTree.with_hasher_leaf_index L _ hne]
    exact MerkleTree.buildMap_lookup_last L.length L 0 (fun _ => none) v idx
      (by omega) (by omega) (by omega) (by simpa using hval)
      (by intro p hp1 hp2; exact hlast p (by omega) hp2)
  refine ⟨hfind, ?_⟩
  rw [MerkleTree.get_path_for_leaf, hfind]
  rfl

/-- Witness for C10 at `L = [5, 7, 5]`, `v = 5`, `idx = 2` (the value
occurs at indices 0 and 2; the last one wins). -/
theorem merkle_find_leaf_last_occurrence_witness :
    (MerkleTree.mk_new ([5, 7, 5] : List F)).find_leaf 5 = some 2 ∧
    (MerkleTree.mk_new ([5, 7, 5] : List F)).get_path_for_leaf 5 =
      (MerkleTree.mk_new ([5, 7, 5] : List F)).get_path 2 :=
  merkle_find_leaf_last_occurrence [5, 7, 5] 5 2 (by decide) (by decide)
    (by intro j h1 h2; simp at h2; omega)

/-! ### SHA-256 (the `sha2` crate, FIPS 180-4) and string encodings

Needed by `country_code_to_field` (`src/circuit/country_proof.rs`),
`LocationVerifier::country_to_field` (`src/proofs/location.rs`) and
`string_to_field` (`src/circuit/email_proof.rs`).  Implemented
concretely so that hash values can be evaluated inside proofs.  All
recursions are structural (fuel-based where needed) so the kernel can
reduce them. -/

/-- Truncation to a 32-bit word. -/
def w32 (n : ℕ) : ℕ := n % 4294967296

def rotr (n x : ℕ) : ℕ := w32 ((x >>> n) ||| (x <<< (32 - n)))

def ssig0 (x : ℕ) : ℕ := (rotr 7 x) ^^^ (rotr 18 x) ^^^ (x >>> 3)

def ssig1 (x : ℕ) : ℕ := (rotr 17 x) ^^^ (rotr 19 x) ^^^ (x >>> 10)

def bsig0 (x : ℕ) : ℕ := (rotr 2 x) ^^^ (rotr 13 x) ^^^ (rotr 22 x)

def bsig1 (x : ℕ) : ℕ := (rotr 6 x) ^^^ (rotr 11 x) ^^^ (rotr 25 x)

def ch (x y z : ℕ) : ℕ := (x &&& y) ^^^ ((x ^^^ 4294967295) &&& z)

def maj (x y z : ℕ) : ℕ := (x &&& y) ^^^ (x &&& z) ^^^ (y &&& z)

/-- The 64 SHA-256 round constants. -/
def shaK : List ℕ :=
  [1116352408, 1899447441, 3049323471, 3921009573, 961987163,
   1508970993, 2453635748, 2870763221, 3624381080, 310598401,
   607225278, 1426881987, 1925078388, 2162078206, 2614888103,
   3248222580, 3835390401, 4022224774, 264347078, 604807628,
   770255983, 1249150122, 1555081692, 1996064986, 2554220882,
   2821834349, 2952996808, 3210313671, 3336571891, 3584528711,
   113926993, 338241895, 666307205, 773529912, 1294757372,
   1396182291, 1695183700, 1986661051, 2177026350, 2456956037,
   2730485921, 2820302411, 3259730800, 3345764771, 3516065817,
   3600352804, 4094571909, 275423344, 430227734, 506948616,
   659060556, 883997877, 958139571, 1322822218, 1537002063,
   1747873779, 1955562222, 2024104815, 2227730452, 2361852424,
   2428436474, 2756734187, 3204031479, 3329325298]

/-- The SHA-256 initial hash state. -/
def shaH0 : List ℕ :=
  [1779033703, 3144134277, 1013904242,
   2773480762, 1359893119, 2600822924,
   528734635, 1541459225]

/-- Message-schedule extension: append `k` further words. -/
def buildW (ws : List ℕ) : ℕ → List ℕ
  | 0 => ws
  | k + 1 =>
    let n := ws.length
    let next := w32 (ssig1 (ws.getD (n - 2) 0) + ws.getD (n - 7) 0 +
      ssig0 (ws.getD (n - 15) 0) + ws.getD (n - 16) 0)
    buildW (ws ++ [next]) k

/-- One round of the SHA-256 compression function. -/
def compressStep (ws : List ℕ) (st : List ℕ) (t : ℕ) : List ℕ :=
  let a := st.getD 0 0
  let b := st.getD 1 0
  let c := st.getD 2 0
  let d := st.getD 3 0
  let e := st.getD 4 0
  let f := st.getD 5 0
  let g := st.getD 6 0
  let h := st.getD 7 0
  let t1 := w32 (h + bsig1 e + ch e f g + shaK.getD t 0 + ws.getD t 0)
  let t2 := w32 (bsig0 a + maj a b c)
  [w32 (t1 + t2), a, b, c, w32 (d + t1), e, f, g]

/-- Compression of one 16-word block into the hash state. -/
def compress (hs : List ℕ) (block : List ℕ) : List ℕ :=
  let ws := buildW block 48
  let st := (List.range 64).foldl (compressStep ws) hs
  List.zipWith (fun x y => w32 (x + y)) hs st

/-- Big-endian byte encoding on `k` bytes. -/
def toBytesBE (k n : ℕ) : List ℕ := (toBytesLE k n).reverse

/-- SHA-256 padding: `0x80`, zeros to 56 mod 64, 8-byte big-endian bit
length. -/
def padMsg (msg : List ℕ) : List ℕ :=
  msg ++ [128] ++ List.replicate ((119 - msg.length % 64) % 64) 0 ++
    toBytesBE 8 (8 * msg.length)

/-- Group bytes into big-endian 32-bit words. -/
def bytesToWords : List ℕ → List ℕ
  | b0 :: b1 :: b2 :: b3 :: rest =>
    (b0 * 16777216 + b1 * 65536 + b2 * 256 + b3) :: bytesToWords rest
  | _ => []

/-- Split a word list into 16-word blocks (fuel-structural so the
kernel can evaluate it; the fuel is the list length, which always
suffices since each step consumes 16 ≥ 1 words). -/
def chunkWords : ℕ → List ℕ → List (List ℕ)
  | 0, _ => []
  | _, [] => []
  | fuel + 1, w :: rest =>
    ((w :: rest).take 16) :: chunkWords fuel ((w :: rest).drop 16)

/-- SHA-256 of a byte string, as 32 bytes. -/
def sha256 (msg : List ℕ) : List ℕ :=
  let ws := bytesToWords (padMsg msg)
  let blocks := chunkWords ws.length ws
  ((blocks.foldl compress shaH0).map (toBytesBE 4)).flatten

/-- Big-endian read of a byte string. -/
def fromBytesBE (l : List ℕ) : ℕ := l.foldl (fun acc b => acc * 256 + b) 0

/-- `Fr::from_be_bytes_mod_order`. -/
def from_be_bytes_mod_order (bytes : List ℕ) : F :=
  ((fromBytesBE bytes : ℕ) : F)

/-- UTF-8 bytes of a string; for the ASCII strings handled here this is
just the code point of each character. -/
def strBytes (s : String) : List ℕ := s.data.map Char.toNat

/-- Rust `str::to_uppercase`, restricted to its ASCII action (the
country codes and domains handled here are ASCII). -/
def toUppercaseStr (s : String) : String :=
  ⟨s.data.map (fun c =>
    if 'a' ≤ c ∧ c ≤ 'z' then Char.ofNat (c.toNat - 32) else c)⟩

/-- Rust `str::to_lowercase`, restricted to its ASCII action. -/
def toLowercaseStr (s : String) : String :=
  ⟨s.data.map (fun c =>
    if 'A' ≤ c ∧ c ≤ 'Z' then Char.ofNat (c.toNat + 32) else c)⟩

/-- Rust `str::contains` (substring test). -/
def strContains (hay needle : String) : Bool :=
  hay.data.tails.any (fun t => needle.data.isPrefixOf t)

/-- `country_code_to_field` (`src/circuit/country_proof.rs`): SHA-256 of
the UPPERCASED code, reduced mod `r`. -/
def country_code_to_field (code : String) : F :=
  from_be_bytes_mod_order (sha256 (strBytes (toUppercaseStr code)))

namespace LocationVerifier

/-- `LocationVerifier::country_to_field` (`src/proofs/location.rs`):
SHA-256 of the code AS GIVEN (no uppercasing), reduced mod `r`. -/
def country_to_field (code : String) : F :=
  from_be_bytes_mod_order (sha256 (strBytes code))

end LocationVerifier

/-- `string_to_field` (`src/circuit/email_proof.rs`). -/
def string_to_field (s : String) : F :=
  from_be_bytes_mod_order (sha256 (strBytes s))

/-- C4 counterexample: on the lowercase code `"us"` the two country
encoders disagree — `country_code_to_field` hashes `"US"` while
`LocationVerifier::country_to_field` hashes `"us"` unchanged. -/
theorem country_field_encoders_disagree_on_lowercase :
    country_code_to_field "us" ≠ LocationVerifier.country_to_field "us" := by
  intro h
  have hv := congrArg ZMod.val h
  unfold country_code_to_field LocationVerifier.country_to_field
    from_be_bytes_mod_order at hv
  rw [ZMod.val_natCast, ZMod.val_natCast] at hv
  exact absurd hv (by decide)

/-- C4 amended: `country_code_to_field` uppercases before hashing,
`LocationVerifier::country_to_field` hashes the code as given; the two
agree exactly on codes that are already uppercase. -/
theorem country_field_encoders_agree_on_uppercase (code : String)
    (h : toUppercaseStr code = code) :
    country_code_to_field code = LocationVerifier.country_to_field code := by
  unfold country_code_to_field LocationVerifier.country_to_field
  rw [h]

/-- Witness for the amended C4 at the uppercase code `"US"`. -/
theorem country_field_encoders_agree_on_uppercase_witness :
    toUppercaseStr "US" = "US" ∧
    country_code_to_field "US" = LocationVerifier.country_to_field "US" :=
  ⟨by decide, country_field_encoders_agree_on_uppercase "US" (by decide)⟩

/-! ### IEEE-754 binary64 model and the country-proof circuit (C3)

`coord_to_scaled` in `src/circuit/country_proof.rs` computes
`(coord * 1_000_000.0) as i64` on `f64` values.  A finite double is
represented here exactly as a pair `(m, e) : ℤ × ℤ` with value
`m · 2^e`, `|m| < 2^53`; multiplication rounds the significand to
nearest-even at 53 bits (overflow and the subnormal range are outside
the coordinate magnitudes handled and are not modelled). -/

/-- Fuel-structural bit length (`⌊log₂ n⌋ + 1` for `n > 0`); the fuel
600 exceeds the bit length of every number this model touches. -/
def bitLenAux : ℕ → ℕ → ℕ
  | 0, _ => 0
  | fuel + 1, n => if n = 0 then 0 else bitLenAux fuel (n / 2) + 1

def bitLen (n : ℕ) : ℕ := bitLenAux 600 n

/-- Round `a / d` to the nearest integer, ties to even (`d > 0`). -/
def roundNEdiv (a d : ℕ) : ℕ :=
  let q := a / d
  let r := a % d
  if 2 * r < d then q
  else if d < 2 * r then q + 1
  else if q % 2 = 0 then q else q + 1

/-- An IEEE-754 binary64 value `m · 2^e`. -/
def F64 : Type := ℤ × ℤ

/-- Renormalize a significand to at most 53 bits, rounding to nearest
even — the IEEE rounding step after a multiplication. -/
def f64norm (m e : ℤ) : F64 :=
  if m = 0 then (0, 0)
  else
    let a := m.natAbs
    let bl := bitLen a
    if bl ≤ 53 then (m, e)
    else
      let sh := bl - 53
      let a2 := roundNEdiv a (2 ^ sh)
      (if m < 0 then -(a2 : ℤ) else (a2 : ℤ), e + sh)

/-- IEEE-754 double multiplication (round to nearest even). -/
def f64Mul (x y : F64) : F64 := f64norm (x.1 * y.1) (x.2 + y.2)

/-- The double nearest to the decimal number `m / 10^k` (how a Rust
`f64` literal denotes a value). -/
def f64OfDec (m : ℤ) (k : ℕ) : F64 :=
  if m = 0 then (0, 0)
  else
    let a := m.natAbs
    let den := 10 ^ k
    let L : ℤ := (bitLen (a * 2 ^ 200 / den) : ℤ) - 1 - 200
    let e : ℤ := L - 52
    let mant : ℕ :=
      if 0 ≤ e then roundNEdiv a (den * 2 ^ e.toNat)
      else roundNEdiv (a * 2 ^ (-e).toNat) den
    (if m < 0 then -(mant : ℤ) else (mant : ℤ), e)

/-- Rust `f64 as i64`: truncation toward zero, saturating at the `i64`
bounds. -/
def f64toI64 (x : F64) : ℤ :=
  let v : ℤ :=
    if 0 ≤ x.2 then x.1 * 2 ^ x.2.toNat
    else Int.tdiv x.1 (2 ^ (-x.2).toNat)
  if v < -(2 ^ 63) then -(2 ^ 63)
  else if 2 ^ 63 - 1 < v then 2 ^ 63 - 1
  else v

/-- `COORD_SCALE` (`src/circuit/country_proof.rs`). -/
def COORD_SCALE : ℤ := 1000000

/-- `coord_to_scaled`: `(coord * COORD_SCALE as f64) as i64`. -/
def coord_to_scaled (coord : F64) : ℤ :=
  f64toI64 (f64Mul coord (f64OfDec COORD_SCALE 0))

/-- Rust `as u64` on an `i64`: two's-complement wrap into `[0, 2^64)`. -/
def wrapU64 (i : ℤ) : ℕ := (i % (2 ^ 64 : ℤ)).toNat

/-- `ScaledBounds`. -/
structure ScaledBounds where
  min_lat : ℤ
  max_lat : ℤ
  min_lng : ℤ
  max_lng : ℤ

/-- `ScaledBounds::new`. -/
def ScaledBounds.mk_new (min_lat max_lat min_lng max_lng : F64) :
    ScaledBounds :=
  { min_lat := coord_to_scaled min_lat
    max_lat := coord_to_scaled max_lat
    min_lng := coord_to_scaled min_lng
    max_lng := coord_to_scaled max_lng }

/-- The `US` row bounds (`src/proofs/location.rs`), scaled. -/
def usBoundsScaled : ScaledBounds :=
  ScaledBounds.mk_new (f64OfDec 24396308 6) (f64OfDec 49384358 6)
    (f64OfDec (-125) 0) (f64OfDec (-6693457) 5)

/-- `CountryProofCircuit` (`src/circuit/country_proof.rs`). -/
structure CountryProofCircuit where
  poseidon_config : PoseidonConfig
  latitude : Option F
  longitude : Option F
  country_id : Option F
  commitment : Option F

/-- `CountryProofCircuit::new_with_witness`: the latitude witness is
`Fr::from(coord_to_scaled(lat) as u64)`, the longitude witness is
`Fr::from((coord_to_scaled(lng) + 180 * COORD_SCALE) as u64)`; the
bounds argument is unused (the caller checks bounds); the commitment is
`Poseidon(lat, lng, country)`. -/
def CountryProofCircuit.new_with_witness (latitude longitude : F64)
    (_bounds : ScaledBounds) (country_code : String) : CountryProofCircuit :=
  let hasher := PoseidonHasher.mk_new
  let lat : F := ((wrapU64 (coord_to_scaled latitude) : ℕ) : F)
  let lng : F :=
    ((wrapU64 (coord_to_scaled longitude + 180 * COORD_SCALE) : ℕ) : F)
  let country := country_code_to_field country_code
  let commitment := hasher.hash_many [lat, lng, country]
  { poseidon_config := hasher.config
    latitude := some lat
    longitude := some lng
    country_id := some country
    commitment := some commitment }

/-- C3 counterexample: at the in-range latitude `-10.0` (for which
`lat · 10^6 = -10^7` is exact, so rounding plays no role) the assigned
latitude witness is NOT the field element `round(lat · 10^6)`: the code
casts the negative `i64` through `as u64`, producing
`F(2^64 - 10^7)` instead of `F(-10^7) = F(r - 10^7)`. -/
theorem country_latitude_witness_not_round :
    (CountryProofCircuit.new_with_witness (f64OfDec (-10) 0)
        (f64OfDec (-1224194) 4) usBoundsScaled "US").latitude ≠
      some (((-10000000 : ℤ) : F)) := by
  simp only [CountryProofCircuit.new_with_witness]
  intro h
  have h2 := Option.some.inj h
  have hv := congrArg (fun x : F => (x.val : ℤ)) h2
  simp only at hv
  rw [ZMod.val_intCast, ZMod.val_natCast] at hv
  exact absurd hv (by decide)

/-- C3 amended: the witnesses are the `as u64` wrap of the TRUNCATED
(not rounded) product `fl(coord · 10^6)`, the longitude shifted by
`180 · 10^6` before the cast.  For `(lat, lng) = (37.7749, -122.4194)`
the claimed particular values do hold (`F(37_774_900)` and
`F(57_580_600)`), because there truncation agrees with rounding; for
`lat = -10.0` the latitude witness is `F(2^64 - 10^7)`, exhibiting the
wrap. -/
theorem country_witness_encoding :
    (CountryProofCircuit.new_with_witness (f64OfDec 377749 4)
        (f64OfDec (-1224194) 4) usBoundsScaled "US").latitude =
      some ((37774900 : ℕ) : F) ∧
    (CountryProofCircuit.new_with_witness (f64OfDec 377749 4)
        (f64OfDec (-1224194) 4) usBoundsScaled "US").longitude =
      some ((57580600 : ℕ) : F) ∧
    (CountryProofCircuit.new_with_witness (f64OfDec (-10) 0)
        (f64OfDec (-1224194) 4) usBoundsScaled "US").latitude =
      some ((18446744073699551616 : ℕ) : F) := by
  refine ⟨?_, ?_, ?_⟩
  · simp only [CountryProofCircuit.new_with_witness]
    rw [show wrapU64 (coord_to_scaled (f64OfDec 377749 4)) = 37774900
      from by decide]
  · simp only [CountryProofCircuit.new_with_witness]
    rw [show wrapU64 (coord_to_scaled (f64OfDec (-1224194) 4) +
        180 * COORD_SCALE) = 57580600 from by decide]
  · simp only [CountryProofCircuit.new_with_witness]
    rw [show wrapU64 (coord_to_scaled (f64OfDec (-10) 0)) =
        18446744073699551616 from by decide]

/-! ### Email domain proof front end (`src/circuit/email_proof.rs`,
`src/wasm.rs`) -/

/-- `EmailProofInput`. -/
structure EmailProofInput where
  email : String
  domain : String
  dkim_data : String
  dkim_verified : Bool

/-- `EmailProofInput::from_domain_with_dkim`. -/
def EmailProofInput.from_domain_with_dkim (domain : String)
    (dkim_verified : Bool) (dkim_data : String) : EmailProofInput :=
  { email := "user@" ++ domain
    domain := toLowercaseStr domain
    dkim_data := if dkim_verified then dkim_data else ""
    dkim_verified := dkim_verified }

/-- `EmailDomainCircuit`. -/
structure EmailDomainCircuit where
  poseidon_config : PoseidonConfig
  email_hash : Option F
  dkim_hash : Option F
  nonce : Option F
  domain_hash : Option F
  commitment : Option F

/-- `EmailDomainCircuit::new_with_witness`.  The 32 random nonce bytes
(`rand::random()`) are passed in explicitly. -/
def EmailDomainCircuit.new_with_witness (input : EmailProofInput)
    (nonce_bytes : List ℕ) : EmailDomainCircuit :=
  let hasher := PoseidonHasher.mk_new
  let email_hash := string_to_field input.email
  let domain_hash := string_to_field input.domain
  let dkim_hash := string_to_field input.dkim_data
  let nonce := from_be_bytes_mod_order nonce_bytes
  let commitment :=
    hasher.hash_many [email_hash, domain_hash, dkim_hash, nonce]
  { poseidon_config := hasher.config
    email_hash := some email_hash
    dkim_hash := some dkim_hash
    nonce := some nonce
    domain_hash := some domain_hash
    commitment := some commitment }

/-- `EmailProofResult` (`src/wasm.rs`). -/
structure EmailProofResult where
  success : Bool
  domain : String
  proof_bytes : List ℕ
  domain_hash : String
  commitment : String
  dkim_verified : Bool
  error : Option String

/-- Hex encoding of a byte, lowercase. -/
def hexDigitChar (n : ℕ) : Char :=
  if n < 10 then Char.ofNat (48 + n) else Char.ofNat (87 + n)

/-- `hex::encode`. -/
def hexEncode (bytes : List ℕ) : String :=
  ⟨(bytes.map (fun b => [hexDigitChar (b / 16), hexDigitChar (b % 16)])).flatten⟩

/-- `prove_email_domain` (`src/wasm.rs`).  The email-prover singleton
(`EMAIL_PROVER`, a mutex-guarded `Option` of key material of some type
`K`), the Groth16 prover call, and the random nonce bytes are passed in
as parameters, since they are external to the front-end logic the claim
is about. -/
def prove_email_domain {K : Type} (prover_state : Option K)
    (groth16_prove : K → EmailDomainCircuit → Except String (List ℕ))
    (nonce_bytes : List ℕ)
    (domain dkim_signature auth_results : String) : EmailProofResult :=
  let dkim_verified := strContains (toLowercaseStr auth_results) "dkim=pass"
  if dkim_verified = false then
    { success := false
      domain := domain
      proof_bytes := []
      domain_hash := ""
      commitment := ""
      dkim_verified := false
      error := some "DKIM verification failed - email may not be authentic" }
  else
    let dkim_data :=
      if dkim_signature ≠ "" then dkim_signature else auth_results
    match prover_state with
    | none =>
      { success := false
        domain := domain
        proof_bytes := []
        domain_hash := ""
        commitment := ""
        dkim_verified := dkim_verified
        error := some
          "Email prover not initialized. Call init_email_prover() first." }
    | some key =>
      let input :=
        EmailProofInput.from_domain_with_dkim domain dkim_verified dkim_data
      let circuit := EmailDomainCircuit.new_with_witness input nonce_bytes
      let domain_hash := circuit.domain_hash.getD 0
      let commitment := circuit.commitment.getD 0
      match groth16_prove key circuit with
      | Except.ok proof_bytes =>
        { success := true
          domain := domain
          proof_bytes := proof_bytes
          domain_hash := hexEncode (serFr domain_hash)
          commitment := hexEncode (serFr commitment)
          dkim_verified := dkim_verified
          error := none }
      | Except.error e =>
        { success := false
          domain := domain
          proof_bytes := []
          domain_hash := ""
          commitment := ""
          dkim_verified := dkim_verified
          error := some ("Proof generation failed: " ++ e) }

/-- C5: whenever the lowercased `auth_results` does not contain
`"dkim=pass"`, `prove_email_domain` refuses: the result has
`success = false`, empty proof bytes, and a non-empty error message —
for every prover state, prover function, and nonce. -/
theorem prove_email_domain_refuses_without_dkim_pass {K : Type}
    (prover_state : Option K)
    (groth16_prove : K → EmailDomainCircuit → Except String (List ℕ))
    (nonce_bytes : List ℕ) (domain dkim_signature auth_results : String)
    (h : strContains (toLowercaseStr auth_results) "dkim=pass" = false) :
    (prove_email_domain prover_state groth16_prove nonce_bytes
        domain dkim_signature auth_results).success = false ∧
    (prove_email_domain prover_state groth16_prove nonce_bytes
        domain dkim_signature auth_results).proof_bytes = [] ∧
    (prove_email_domain prover_state groth16_prove nonce_bytes
        domain dkim_signature auth_results).error ≠ none ∧
    (prove_email_domain prover_state groth16_prove nonce_bytes
        domain dkim_signature auth_results).error ≠ some "" := by
  unfold prove_email_domain
  rw [h]
  simp only [if_pos rfl]
  refine ⟨rfl, rfl, by simp, by simp⟩

/-- Witness for C5 at the scenario inputs `("google.com",
"v=1;a=rsa-sha256;d=google.com;s=sel;b=x", "dkim=fail")`, with an
uninitialized prover and a trivial prover function. -/
theorem prove_email_domain_refuses_without_dkim_pass_witness :
    (prove_email_domain (K := Unit) none (fun _ _ => Except.ok []) []
        "google.com" "v=1;a=rsa-sha256;d=google.com;s=sel;b=x"
        "dkim=fail").success = false ∧
    (prove_email_domain (K := Unit) none (fun _ _ => Except.ok []) []
        "google.com" "v=1;a=rsa-sha256;d=google.com;s=sel;b=x"
        "dkim=fail").proof_bytes = [] ∧
    (prove_email_domain (K := Unit) none (fun _ _ => Except.ok []) []
        "google.com" "v=1;a=rsa-sha256;d=google.com;s=sel;b=x"
        "dkim=fail").error ≠ none ∧
    (prove_email_domain (K := Unit) none (fun _ _ => Except.ok []) []
        "google.com" "v=1;a=rsa-sha256;d=google.com;s=sel;b=x"
        "dkim=fail").error ≠ some "" :=
  prove_email_domain_refuses_without_dkim_pass none (fun _ _ => Except.ok [])
    [] "google.com" "v=1;a=rsa-sha256;d=google.com;s=sel;b=x" "dkim=fail"
    (by decide)

/-! ### Hex decoding and the verification bindings (`src/wasm.rs`) -/

/-- Value of one hex digit. -/
def hexVal (c : Char) : Option ℕ :=
  if '0' ≤ c ∧ c ≤ '9' then some (c.toNat - 48)
  else if 'a' ≤ c ∧ c ≤ 'f' then some (c.toNat - 87)
  else if 'A' ≤ c ∧ c ≤ 'F' then some (c.toNat - 55)
  else none

/-- `hex::decode` on a character list: pairs of hex digits; odd length
or a non-hex character fails. -/
def hexDecodeList : List Char → Option (List ℕ)
  | [] => some []
  | [_] => none
  | c1 :: c2 :: rest =>
    match hexVal c1, hexVal c2, hexDecodeList rest with
    | some v1, some v2, some bs => some ((16 * v1 + v2) :: bs)
    | _, _, _ => none

/-- `hex::decode`. -/
def hexDecode (s : String) : Option (List ℕ) := hexDecodeList s.data

/-- `verify_country_proof` (`src/wasm.rs`).  The Groth16 proof type
`P`, its deserializer, the prover singleton contents `K`, and the
pairing check are parameters; every failure path returns `false`. -/
def verify_country_proof {K P : Type} (prover_state : Option K)
    (proof_deserialize : List ℕ → Option P)
    (groth16_verify : K → F → P → Except String Bool)
    (proof_hex public_input_hex : String) : Bool :=
  match hexDecode proof_hex with
  | none => false
  | some proof_bytes =>
    match hexDecode public_input_hex with
    | none => false
    | some public_input_bytes =>
      match proof_deserialize proof_bytes with
      | none => false
      | some proof =>
        match deserFr public_input_bytes with
        | none => false
        | some public_input =>
          match prover_state with
          | none => false
          | some key =>
            match groth16_verify key public_input proof with
            | Except.ok b => b
            | Except.error _ => false

/-- `verify_email_proof` (`src/wasm.rs`): same shape with two public
inputs (`domain_hash`, `commitment`). -/
def verify_email_proof {K P : Type} (prover_state : Option K)
    (proof_deserialize : List ℕ → Option P)
    (groth16_verify : K → F → F → P → Except String Bool)
    (proof_hex domain_hash_hex commitment_hex : String) : Bool :=
  match hexDecode proof_hex with
  | none => false
  | some proof_bytes =>
    match hexDecode domain_hash_hex with
    | none => false
    | some domain_hash_bytes =>
      match hexDecode commitment_hex with
      | none => false
      | some commitment_bytes =>
        match proof_deserialize proof_bytes with
        | none => false
        | some proof =>
          match deserFr domain_hash_bytes with
          | none => false
          | some domain_hash =>
            match deserFr commitment_bytes with
            | none => false
            | some commitment =>
              match prover_state with
              | none => false
              | some key =>
                match groth16_verify key domain_hash commitment proof with
                | Except.ok b => b
                | Except.error _ => false

/-- C9: both verification bindings are total Boolean functions (the
embedding returns a `Bool` on every path, so no panic is possible), and
they return `false` whenever hex decoding fails, proof deserialization
fails, a public-input field element fails to deserialize, or the prover
singleton is uninitialized — for every prover state, deserializer and
pairing check. -/
theorem verify_bindings_fail_closed {K P : Type} (prover_state : Option K)
    (proof_deserialize : List ℕ → Option P)
    (gv1 : K → F → P → Except String Bool)
    (gv2 : K → F → F → P → Except String Bool)
    (ph ih dh ch : String) :
    (hexDecode ph = none ∨ hexDecode ih = none ∨
        ((hexDecode ph).bind proof_deserialize = none ∧ hexDecode ph ≠ none) ∨
        ((hexDecode ih).bind deserFr = none ∧ hexDecode ih ≠ none) ∨
        prover_state = none →
      verify_country_proof prover_state proof_deserialize gv1 ph ih = false) ∧
    (hexDecode ph = none ∨ hexDecode dh = none ∨ hexDecode ch = none ∨
        ((hexDecode ph).bind proof_deserialize = none ∧ hexDecode ph ≠ none) ∨
        ((hexDecode dh).bind deserFr = none ∧ hexDecode dh ≠ none) ∨
        ((hexDecode ch).bind deserFr = none ∧ hexDecode ch ≠ none) ∨
        prover_state = none →
      verify_email_proof prover_state proof_deserialize gv2 ph dh ch =
        false) := by
  constructor
  · intro hcase
    rcases hp : hexDecode ph with _ | pbs
    · simp [verify_country_proof, hp]
    rcases hi : hexDecode ih with _ | ibs
    · simp [verify_country_proof, hp, hi]
    rcases hpd : proof_deserialize pbs with _ | proof
    · simp [verify_country_proof, hp, hi, hpd]
    rcases hfr : deserFr ibs with _ | pin
    · simp [verify_country_proof, hp, hi, hpd, hfr]
    rcases hst : prover_state with _ | key
    · simp [verify_country_proof, hp, hi, hpd, hfr]
    exfalso
    rcases hcase with h | h | ⟨h, _⟩ | ⟨h, _⟩ | h
    · rw [hp] at h
      exact absurd h (by simp)
    · rw [hi] at h
      exact absurd h (by simp)
    · rw [hp] at h
      rw [show (some pbs).bind proof_deserialize = proof_deserialize pbs
        from rfl, hpd] at h
      exact absurd h (by simp)
    · rw [hi] at h
      rw [show (some ibs).bind deserFr = deserFr ibs from rfl, hfr] at h
      exact absurd h (by simp)
    · rw [hst] at h
      exact absurd h (by simp)
  · intro hcase
    rcases hp : hexDecode ph with _ | pbs
    · simp [verify_email_proof, hp]
    rcases hd : hexDecode dh with _ | dbs
    · simp [verify_email_proof, hp, hd]
    rcases hc : hexDecode ch with _ | cbs
    · simp [verify_email_proof, hp, hd, hc]
    rcases hpd : proof_deserialize pbs with _ | proof
    · simp [verify_email_proof, hp, hd, hc, hpd]
    rcases hfr1 : deserFr dbs with _ | dhv
    · simp [verify_email_proof, hp, hd, hc, hpd, hfr1]
    rcases hfr2 : deserFr cbs with _ | cmv
    · simp [verify_email_proof, hp, hd, hc, hpd, hfr1, hfr2]
    rcases hst : prover_state with _ | key
    · simp [verify_email_proof, hp, hd, hc, hpd, hfr1, hfr2]
    exfalso
    rcases hcase with h | h | h | ⟨h, _⟩ | ⟨h, _⟩ | ⟨h, _⟩ | h
    · rw [hp] at h
      exact absurd h (by simp)
    · rw [hd] at h
      exact absurd h (by simp)
    · rw [hc] at h
      exact absurd h (by simp)
    · rw [hp] at h
      rw [show (some pbs).bind proof_deserialize = proof_deserialize pbs
        from rfl, hpd] at h
      exact absurd h (by simp)
    · rw [hd] at h
      rw [show (some dbs).bind deserFr = deserFr dbs from rfl, hfr1] at h
      exact absurd h (by simp)
    · rw [hc] at h
      rw [show (some cbs).bind deserFr = deserFr cbs from rfl, hfr2] at h
      exact absurd h (by simp)
    · rw [hst] at h
      exact absurd h (by simp)

/-- Witness for C9: both verifiers return `false` on the non-hex input
`"zz"` (with an uninitialized prover and trivial parameters). -/
theorem verify_bindings_fail_closed_witness :
    verify_country_proof (K := Unit) (P := Unit) none (fun _ => none)
      (fun _ _ _ => Except.ok true) "zz" "00" = false ∧
    verify_email_proof (K := Unit) (P := Unit) none (fun _ => none)
      (fun _ _ _ _ => Except.ok true) "zz" "00" "00" = false :=
  ⟨(verify_bindings_fail_closed (K := Unit) (P := Unit) none (fun _ => none)
      (fun _ _ _ => Except.ok true) (fun _ _ _ _ => Except.ok true)
      "zz" "00" "00" "00").1 (Or.inl (by decide)),
   (verify_bindings_fail_closed (K := Unit) (P := Unit) none (fun _ => none)
      (fun _ _ _ => Except.ok true) (fun _ _ _ _ => Except.ok true)
      "zz" "00" "00" "00").2 (Or.inl (by decide))⟩

/-! ### Membership proof serialization (`src/prover.rs`, C8)

`MembershipProof` holds an arkworks Groth16 proof and the public-input
field element.  The Groth16 proof type and its compressed
(de)serialization are external; they are abstracted by a serializer
`ser` and a deserializer `deser` together with the arkworks reader
contract: deserializing a byte stream that starts with `ser p` yields
`p` back and ignores the trailing bytes.  The field-element
serialization is the concrete `serFr`/`deserFr` above. -/

/-- `MembershipProof`, generic over the Groth16 proof type. -/
structure MembershipProof (P : Type) where
  proof : P
  public_input : F

/-- `MembershipProof::to_bytes`: compressed proof bytes, then the
compressed public input. -/
def MembershipProof.to_bytes {P : Type} (ser : P → List ℕ)
    (mp : MembershipProof P) : List ℕ :=
  ser mp.proof ++ serFr mp.public_input

/-- `MembershipProof::from_bytes`: parse the proof from the front of
the byte string, re-serialize it to learn its size, and interpret the
remaining bytes as the public input. -/
def MembershipProof.from_bytes {P : Type} (ser : P → List ℕ)
    (deser : List ℕ → Option P) (bytes : List ℕ) :
    Option (MembershipProof P) :=
  match deser bytes with
  | none => none
  | some proof =>
    let proof_size := (ser proof).length
    match deserFr (bytes.drop proof_size) with
    | none => none
    | some public_input => some { proof := proof, public_input := public_input }

/-- C8: for every proof codec satisfying the arkworks reader contract
and every `MembershipProof`, `from_bytes (to_bytes P) = some P`: the
proof is parsed from the front and the remainder is read back as the
public input. -/
theorem membership_proof_roundtrip {P : Type} (ser : P → List ℕ)
    (deser : List ℕ → Option P)
    (hcontract : ∀ p rest, deser (ser p ++ rest) = some p)
    (mp : MembershipProof P) :
    MembershipProof.from_bytes ser deser (MembershipProof.to_bytes ser mp) =
      some mp := by
  unfold MembershipProof.from_bytes MembershipProof.to_bytes
  rw [hcontract mp.proof (serFr mp.public_input)]
  simp only
  rw [List.drop_left, deserFr_serFr]

/-- A concrete one-byte codec satisfying the reader contract, used to
witness C8. -/
def unitProofSer : Unit → List ℕ := fun _ => [42]

/-- Deserializer for `unitProofSer`. -/
def unitProofDeser : List ℕ → Option Unit := fun _ => some ()

/-- Witness for C8 at the concrete proof `((), 7)` under the one-byte
codec. -/
theorem membership_proof_roundtrip_witness :
    MembershipProof.from_bytes unitProofSer unitProofDeser
        (MembershipProof.to_bytes unitProofSer
          { proof := (), public_input := (7 : F) }) =
      some { proof := (), public_input := (7 : F) } :=
  membership_proof_roundtrip unitProofSer unitProofDeser
    (fun _ _ => rfl) { proof := (), public_input := (7 : F) }

end ZkVault
